import Mathlib

/-!
Shallow embedding of the phy_gnn repository's data-preparation pipeline
(`task/passive_biv/data/datasets_preparation_hdf5.py`), trainer
(`pkg/train/trainer/base_trainer.py`), normalization transforms
(`pkg/train/module/data_transform.py`) and path utilities
(`pkg/utils/io.py`), together with theorems checking the natural-language
specification against the code.

Numbers read from CSV files and tensor entries are modelled as rationals,
node indices as naturals, and `astype(np.int32)` as wrap-around on `Int`.
Python dicts are modelled as association lists (`List (String × _)`) or,
for the trainer metrics, extensionally as `String → Option ℚ`.
-/

set_option autoImplicit false

/-! ## Decimal rendering (Python `str` / `:04d` formatting) -/

/-- The character for a single decimal digit, `digitChar d = str(d)` for `d < 10`. -/
def digitChar : Nat → Char
  | 0 => '0'
  | 1 => '1'
  | 2 => '2'
  | 3 => '3'
  | 4 => '4'
  | 5 => '5'
  | 6 => '6'
  | 7 => '7'
  | 8 => '8'
  | 9 => '9'
  | _ => '*'

/-- Numeric value of a decimal digit character (inverse of `digitChar`). -/
def charVal : Char → Nat
  | '1' => 1
  | '2' => 2
  | '3' => 3
  | '4' => 4
  | '5' => 5
  | '6' => 6
  | '7' => 7
  | '8' => 8
  | '9' => 9
  | _ => 0

/-- Big-endian decimal digits of `n` (empty for `n = 0`). -/
def natChars (n : Nat) : List Char :=
  ((Nat.digits 10 n).reverse).map digitChar

/-- Left-pad a character list with `'0'` up to width `w`
(Python `str(n).zfill(w)` respectively the `0`-pad of `f-string` `:0wd`). -/
def zfill (w : Nat) (cs : List Char) : List Char :=
  List.replicate (w - cs.length) '0' ++ cs

/-- Python `f"{n:04d}"` for a natural number `n`. -/
def py04d (n : Nat) : List Char :=
  zfill 4 (natChars n)

/-- Python `str(n)` for a natural number `n` (pad to width 1 so `str(0) = "0"`). -/
def natStr (n : Nat) : List Char :=
  zfill 1 (natChars n)

/-- Recover the numeric value from a (possibly zero-padded) decimal rendering. -/
def parseDec (cs : List Char) : Nat :=
  Nat.ofDigits 10 ((cs.map charVal).reverse)

theorem charVal_digitChar {d : Nat} (hd : d < 10) : charVal (digitChar d) = d := by
  interval_cases d <;> rfl

theorem ofDigits_replicate_zero (k : Nat) : Nat.ofDigits 10 (List.replicate k 0) = 0 := by
  induction k with
  | zero => simp [Nat.ofDigits]
  | succ n ih => simp [List.replicate_succ, Nat.ofDigits, ih]

/-- Zero-padding does not change the parsed value: `parseDec (zfill w (natChars n)) = n`. -/
theorem parseDec_zfill_natChars (w n : Nat) : parseDec (zfill w (natChars n)) = n := by
  have hmap : (natChars n).map charVal = (Nat.digits 10 n).reverse := by
    unfold natChars
    rw [List.map_map]
    have : ∀ d ∈ (Nat.digits 10 n).reverse, (charVal ∘ digitChar) d = d := by
      intro d hd
      have hd10 : d < 10 :=
        Nat.digits_lt_base (by norm_num) (List.mem_reverse.mp hd)
      simpa using charVal_digitChar hd10
    calc ((Nat.digits 10 n).reverse).map (charVal ∘ digitChar)
        = ((Nat.digits 10 n).reverse).map id := List.map_congr_left this
      _ = (Nat.digits 10 n).reverse := List.map_id _
  unfold parseDec zfill
  rw [List.map_append, hmap, List.map_replicate]
  have hcz : charVal '0' = 0 := rfl
  rw [hcz, List.reverse_append, List.reverse_reverse, List.reverse_replicate]
  rw [Nat.ofDigits_append, Nat.ofDigits_digits, ofDigits_replicate_zero]
  ring

theorem parseDec_py04d (n : Nat) : parseDec (py04d n) = n :=
  parseDec_zfill_natChars 4 n

/-! ## CSV file names (`f"/ct_case_{idx + 1:04d}.csv"`) -/

/-- The CSV file name read for case number `n`: `f"/ct_case_{n:04d}.csv"`. -/
def ctCaseName (n : Nat) : String :=
  String.mk ( "/ct_case_".toList ++ py04d n ++ ".csv".toList)

theorem ctCaseName_injective : Function.Injective ctCaseName := by
  intro a b h
  unfold ctCaseName at h
  have hdata : "/ct_case_".toList ++ (py04d a ++ ".csv".toList)
      = "/ct_case_".toList ++ (py04d b ++ ".csv".toList) := by
    have := congrArg String.toList h
    simpa using this
  have h2 : py04d a ++ ".csv".toList = py04d b ++ ".csv".toList :=
    List.append_cancel_left hdata
  have h3 : py04d a = py04d b := List.append_cancel_right h2
  have := congrArg parseDec h3
  rwa [parseDec_py04d, parseDec_py04d] at this

/-! ## Column slicing (`arr[:, a:b]` on a row) -/

/-- NumPy slice `row[a:b]` of one CSV row. -/
def colSlice {α : Type} (a b : Nat) (row : List α) : List α :=
  (row.drop a).take (b - a)

/-! ## `np.array_split(xs, n)`: split into `n` parts of near-equal length -/

/-- The part sizes of `np.array_split` on an array of length `L` into `n`
sections: the first `L % n` parts get `L / n + 1` elements, the remaining
`n - L % n` parts get `L / n` elements. -/
def splitSizes (L n : Nat) : List Nat :=
  List.replicate (L % n) (L / n + 1) ++ List.replicate (n - L % n) (L / n)

/-- Cut a list into consecutive chunks of the given sizes. -/
def chunksBySizes {α : Type} : List Nat → List α → List (List α)
  | [], _ => []
  | s :: ss, xs => xs.take s :: chunksBySizes ss (xs.drop s)

/-- `np.array_split(xs, n)` (total: returns `[]` when `n = 0`, where NumPy raises). -/
def array_split {α : Type} (xs : List α) (n : Nat) : List (List α) :=
  chunksBySizes (splitSizes xs.length n) xs

theorem splitSizes_sum (L n : Nat) (hn : 0 < n) : (splitSizes L n).sum = L := by
  unfold splitSizes
  rw [List.sum_append, List.sum_replicate, List.sum_replicate, smul_eq_mul, smul_eq_mul]
  have hmod : L % n ≤ n := le_of_lt (Nat.mod_lt _ hn)
  have hdm : n * (L / n) + L % n = L := Nat.div_add_mod L n
  have hsub : (n - L % n) * (L / n) = n * (L / n) - (L % n) * (L / n) := Nat.sub_mul _ _ _
  have hle : (L % n) * (L / n) ≤ n * (L / n) := Nat.mul_le_mul_right _ hmod
  have hms : (L % n) * (L / n + 1) = (L % n) * (L / n) + L % n := Nat.mul_succ _ _
  omega

theorem chunksBySizes_flatten {α : Type} (sizes : List Nat) (xs : List α) :
    (chunksBySizes sizes xs).flatten = xs.take sizes.sum := by
  induction sizes generalizing xs with
  | nil => simp [chunksBySizes]
  | cons s ss ih =>
      simp only [chunksBySizes, List.flatten_cons, List.sum_cons]
      rw [ih, List.take_add]

/-- `np.array_split` loses no elements: concatenating the parts gives back the input. -/
theorem array_split_flatten {α : Type} (xs : List α) (n : Nat) (hn : 0 < n) :
    (array_split xs n).flatten = xs := by
  unfold array_split
  rw [chunksBySizes_flatten, splitSizes_sum _ _ hn, List.take_length]

theorem chunksBySizes_length_eq {α : Type} (sizes : List Nat) (xs : List α)
    (h : sizes.sum ≤ xs.length) :
    ∀ c ∈ chunksBySizes sizes xs, ∃ s ∈ sizes, c.length = s := by
  induction sizes generalizing xs with
  | nil => simp [chunksBySizes]
  | cons s ss ih =>
      intro c hc
      simp only [chunksBySizes, List.mem_cons] at hc
      rcases hc with hc | hc
      · refine ⟨s, List.mem_cons_self _ _, ?_⟩
        subst hc
        rw [List.length_take]
        have : s ≤ xs.length := by
          have := List.sum_cons (a := s) (l := ss) ▸ h
          omega
        omega
      · have hlen : ss.sum ≤ (xs.drop s).length := by
          rw [List.length_drop]
          have := List.sum_cons (a := s) (l := ss) ▸ h
          omega
        obtain ⟨t, ht, hct⟩ := ih (xs.drop s) hlen c hc
        exact ⟨t, List.mem_cons_of_mem _ ht, hct⟩

/-- When the section count divides the length, every part of `np.array_split`
has exactly length `L / n`. -/
theorem array_split_length_of_dvd {α : Type} (xs : List α) (n : Nat) (hn : 0 < n)
    (hdvd : n ∣ xs.length) :
    ∀ c ∈ array_split xs n, c.length = xs.length / n := by
  intro c hc
  have hmod : xs.length % n = 0 := by
    obtain ⟨k, hk⟩ := hdvd
    rw [hk, Nat.mul_mod_right]
  unfold array_split at hc
  have hsum : (splitSizes xs.length n).sum = xs.length := splitSizes_sum _ _ hn
  obtain ⟨s, hs, hcs⟩ := chunksBySizes_length_eq _ _ (le_of_eq hsum) c hc
  unfold splitSizes at hs
  rw [hmod] at hs
  simp only [List.replicate_zero, List.nil_append, List.mem_replicate] at hs
  rw [hcs, hs.2]

/-! ## Error-propagating map over `Except` (sequential Python loop with exceptions) -/

inductive PyErr : Type where
  | typeError : PyErr
  | valueError : PyErr
deriving DecidableEq, Repr

/-- Map a fallible step over a list, stopping at the first raised error
(the semantics of a Python `for` loop whose body may raise). -/
def mapE {α β : Type} (f : α → Except PyErr β) : List α → Except PyErr (List β)
  | [] => Except.ok []
  | a :: as =>
      match f a with
      | Except.error e => Except.error e
      | Except.ok b =>
          match mapE f as with
          | Except.error e => Except.error e
          | Except.ok bs => Except.ok (b :: bs)

theorem mapE_ok_length {α β : Type} (f : α → Except PyErr β) (xs : List α) (ys : List β)
    (h : mapE f xs = Except.ok ys) : ys.length = xs.length := by
  induction xs generalizing ys with
  | nil => simp only [mapE] at h; cases h; rfl
  | cons a as ih =>
      simp only [mapE] at h
      cases hfa : f a with
      | error e => rw [hfa] at h; cases h
      | ok b =>
          rw [hfa] at h
          cases hrest : mapE f as with
          | error e => rw [hrest] at h; cases h
          | ok bs =>
              rw [hrest] at h
              cases h
              simp [ih bs hrest]

theorem mapE_ok_getD {α β : Type} (f : α → Except PyErr β) (xs : List α) (ys : List β)
    (da : α) (db : β) (h : mapE f xs = Except.ok ys) :
    ∀ p, p < xs.length → f (xs.getD p da) = Except.ok (ys.getD p db) := by
  induction xs generalizing ys with
  | nil => intro p hp; simp at hp
  | cons a as ih =>
      simp only [mapE] at h
      cases hfa : f a with
      | error e => rw [hfa] at h; cases h
      | ok b =>
          rw [hfa] at h
          cases hrest : mapE f as with
          | error e => rw [hrest] at h; cases h
          | ok bs =>
              rw [hrest] at h
              cases h
              intro p hp
              cases p with
              | zero => simpa using hfa
              | succ q =>
                  simp only [List.getD_cons_succ]
                  exact ih bs hrest q (by simpa using hp)

theorem mapE_ok_mem {α β : Type} (f : α → Except PyErr β) (xs : List α) (ys : List β)
    (h : mapE f xs = Except.ok ys) :
    ∀ y ∈ ys, ∃ x ∈ xs, f x = Except.ok y := by
  induction xs generalizing ys with
  | nil => simp only [mapE] at h; cases h; simp
  | cons a as ih =>
      simp only [mapE] at h
      cases hfa : f a with
      | error e => rw [hfa] at h; cases h
      | ok b =>
          rw [hfa] at h
          cases hrest : mapE f as with
          | error e => rw [hrest] at h; cases h
          | ok bs =>
              rw [hrest] at h
              cases h
              intro y hy
              rcases List.mem_cons.mp hy with hy | hy
              · exact ⟨a, List.mem_cons_self _ _, hy ▸ hfa⟩
              · obtain ⟨x, hx, hfx⟩ := ih bs hrest y hy
                exact ⟨x, List.mem_cons_of_mem _ hx, hfx⟩

theorem mapE_append_of_ok {α β : Type} (f : α → Except PyErr β) (xs ys : List α)
    (bs : List β) (h : mapE f xs = Except.ok bs) :
    mapE f (xs ++ ys) = (mapE f ys).map (fun cs => bs ++ cs) := by
  induction xs generalizing bs with
  | nil =>
      simp only [mapE] at h
      cases h
      simp only [List.nil_append]
      cases mapE f ys <;> simp [Except.map]
  | cons a as ih =>
      simp only [mapE] at h
      cases hfa : f a with
      | error e => rw [hfa] at h; cases h
      | ok b =>
          rw [hfa] at h
          cases hrest : mapE f as with
          | error e => rw [hrest] at h; cases h
          | ok bs' =>
              rw [hrest] at h
              cases h
              have hmain := ih bs' hrest
              show (match f a with
                | Except.error e => Except.error e
                | Except.ok b =>
                    match mapE f (as ++ ys) with
                    | Except.error e => Except.error e
                    | Except.ok bs => Except.ok (b :: bs)) = _
              simp only [hfa, hmain]
              cases mapE f ys <;> simp [Except.map]

/-- A nested successful `mapE` flattens: mapping over the concatenation of the
chunks succeeds with the concatenation of the per-chunk results. -/
theorem mapE_flatten {α β : Type} (f : α → Except PyErr β) (chunks : List (List α))
    (files : List (List β)) (h : mapE (fun c => mapE f c) chunks = Except.ok files) :
    mapE f chunks.flatten = Except.ok files.flatten := by
  induction chunks generalizing files with
  | nil => simp only [mapE] at h; cases h; simp [mapE]
  | cons c cs ih =>
      simp only [mapE] at h
      cases hfc : mapE f c with
      | error e => rw [hfc] at h; cases h
      | ok b =>
          rw [hfc] at h
          cases hrest : mapE (fun c => mapE f c) cs with
          | error e => rw [hrest] at h; cases h
          | ok bs =>
              rw [hrest] at h
              cases h
              simp only [List.flatten_cons]
              rw [mapE_append_of_ok f c cs.flatten b hfc, ih bs hrest]
              simp [Except.map]

/-! ## Distance-based edge generation

The implementations `generate_distance_based_edges_nb` / `_ny` live in
`pkg/data_utils/edge_generation.py`, which is not part of the sources here;
only their caller `PassiveBiVPreparationDataset._generate_distance_based_edges`
is. The core heuristic is therefore modelled from the spec. -/

/-- Squared Euclidean distance between two coordinate rows
(squared form avoids the square root; the ordering of distances is the same). -/
def sqDist (p q : List ℚ) : ℚ :=
  (List.zipWith (fun a b => (a - b) * (a - b)) p q).sum

/-- Modelled from the spec: the distance bands of the sectioned neighbour
search. `sections` is the increasing list of (squared) distance thresholds;
band `s` covers distances in `(sections[s-1], sections[s]]`, the first band
starting above `0` (so a node is never its own neighbour). -/
def distBands (sections : List ℚ) : List (ℚ × ℚ) :=
  List.zip (0 :: sections) sections

/-- Modelled from the spec: for node `i`, the neighbours selected from one
distance band: the first `k` other nodes whose squared distance to node `i`
lies in the band `(lo, hi]`. (`generate_distance_based_edges_nb` / `_ny` in
`pkg/data_utils/edge_generation.py` are missing from the sources; the spec
describes them as a heuristic that "connects graph nodes within spatial
sections based on pairwise distance thresholds".) -/
def bandNeighbours (coords : List (List ℚ)) (i : Nat) (lo hi : ℚ) (k : Nat) : List Nat :=
  (((List.range coords.length).filter
    (fun j => decide (lo < sqDist (coords.getD i []) (coords.getD j [])) &&
      decide (sqDist (coords.getD i []) (coords.getD j []) ≤ hi))).take k)

/-- Modelled from the spec: all selected neighbours of node `i`, concatenated
over the distance bands with their per-band node budgets. -/
def nodeNeighbours (coords : List (List ℚ)) (sections : List ℚ)
    (nodesPerSections : List Nat) (i : Nat) : List Nat :=
  ((distBands sections).zip nodesPerSections).flatMap
    (fun bk => bandNeighbours coords i bk.1.1 bk.1.2 bk.2)

/-- Modelled from the spec: the shared sectioned nearest-neighbour core of the
two edge-generation backends, producing one neighbour-index row per node. -/
def sectionedEdges (coords : List (List ℚ)) (sections : List ℚ)
    (nodesPerSections : List Nat) : List (List Nat) :=
  (List.range coords.length).map (nodeNeighbours coords sections nodesPerSections)

/-- Modelled from the spec: `generate_distance_based_edges_ny`, the
NumPy-backend entry point, taking a batched coordinate array and the batch
indices to process, and returning the batched edge-index array. -/
def generate_distance_based_edges_ny (batchCoords : List (List (List ℚ)))
    (indices : List Nat) (sections : List ℚ) (nodesPerSections : List Nat) :
    List (List (List Int)) :=
  indices.map (fun b =>
    (sectionedEdges (batchCoords.getD b []) sections nodesPerSections).map
      (fun row => row.map Int.ofNat))

/-- Modelled from the spec: `generate_distance_based_edges_nb`, the
Numba-backend entry point, taking one (unbatched) coordinate array and
returning that node set's edge-index array. -/
def generate_distance_based_edges_nb (coords : List (List ℚ)) (sections : List ℚ)
    (nodesPerSections : List Nat) : List (List Int) :=
  (sectionedEdges coords sections nodesPerSections).map (fun row => row.map Int.ofNat)

/-- `astype(np.int32)` on an integer: wrap-around into `[-2^31, 2^31)`. -/
def toInt32 (z : Int) : Int :=
  (z + 2 ^ 31) % 2 ^ 32 - 2 ^ 31

/-- The platform string `common.constant.DARWIN` (macOS). -/
def DARWIN : String := "Darwin"

/-- `PassiveBiVPreparationDataset._generate_distance_based_edges`
(src lines 147-176): on Darwin call the NumPy backend on the
batch-expanded coordinates with index list `[0]`; otherwise call the Numba
backend and expand / cast its result (`[np.newaxis, :].astype(np.int32)`). -/
def generate_distance_based_edges (platform : String) (sections : List ℚ)
    (nodesPerSections : List Nat) (node_coords : List (List ℚ)) :
    List (List (List Int)) :=
  if platform = DARWIN then
    generate_distance_based_edges_ny [node_coords] [0] sections nodesPerSections
  else
    [(generate_distance_based_edges_nb node_coords sections nodesPerSections).map
      (fun row => row.map toInt32)]

theorem mem_nodeNeighbours_lt (coords : List (List ℚ)) (sections : List ℚ)
    (nps : List Nat) (i j : Nat) (hj : j ∈ nodeNeighbours coords sections nps i) :
    j < coords.length := by
  unfold nodeNeighbours at hj
  obtain ⟨bk, _, hmem⟩ := List.mem_flatMap.mp hj
  unfold bandNeighbours at hmem
  have hmem2 := List.mem_of_mem_take hmem
  have := List.mem_of_mem_filter hmem2
  exact List.mem_range.mp this

theorem toInt32_of_small (z : Int) (h0 : 0 ≤ z) (h1 : z < 2 ^ 31) : toInt32 z = z := by
  unfold toInt32
  have hlt : z + 2 ^ 31 < 2 ^ 32 := by omega
  have hge : (0 : Int) ≤ z + 2 ^ 31 := by omega
  rw [Int.emod_eq_of_lt hge hlt]
  omega

/-! ## The passive bi-ventricular dataset preparation pipeline -/

/-- `common.constant` data-set type names, modelled as an inductive type
(`TRAIN_NAME` / `VALIDATION_NAME` are distinct constants). -/
inductive DataType : Type where
  | train : DataType
  | validation : DataType
deriving DecidableEq, Repr

/-- The configuration slice of `PassiveBiVPreparationDataset` read in
`__init__` (src lines 37-54), plus the `platform` attribute used by
`_generate_distance_based_edges`. -/
structure PrepConfig where
  sample_indices : List Nat
  chunk_file_size : Nat
  sections : List ℚ
  nodes_per_sections : List Nat
  train_down_sampling_node : Option Nat
  val_down_sampling_node : Option Nat
  platform : String
deriving Repr

/-- Python truthiness of the optional down-sampling node count
(`None` and `0` are falsy). -/
def truthyOpt : Option Nat → Bool
  | none => false
  | some k => decide (k ≠ 0)

/-- One HDF5 sample group as written by `_data_generation` (src lines 95-109). -/
structure Sample where
  index : Nat
  points : Nat
  node_coord : List (List ℚ)
  laplace_coord : List (List ℚ)
  fiber_and_sheet : List (List ℚ)
  edges_indices : List (List Int)
  mat_param : List ℚ
  pressure : List ℚ
  shape_coeffs : List ℚ
  displacement : List (List ℚ)
  stress : List (List ℚ)
deriving DecidableEq, Repr, Inhabited

/-- `PassiveBiVPreparationDataset._down_sampling_node` (src lines 119-145).
`choice` stands for the index sequence drawn by `np.random.choice`; its
first `k` entries are the selected rows. Comparing `None > num_nodes`
raises a `TypeError` in Python 3; an over-large request raises `ValueError`. -/
def down_sampling_node (cfg : PrepConfig) (dt : DataType) (choice : List Nat)
    (ins outs : List (List ℚ)) : Except PyErr (List (List ℚ) × List (List ℚ)) :=
  let nds := match dt with
    | DataType.train => cfg.train_down_sampling_node
    | DataType.validation => cfg.val_down_sampling_node
  match nds with
  | none => Except.error PyErr.typeError
  | some k =>
      if ins.length < k then Except.error PyErr.valueError
      else Except.ok
        ((choice.take k).map (fun r => ins.getD r []),
         (choice.take k).map (fun r => outs.getD r []))

/-- The two down-sampling guards of `_data_generation` (src lines 88-91):
the first fires for validation data or a truthy `val_down_sampling_node`,
the second for training data with a truthy `train_down_sampling_node`. -/
def downSamplingGuards (cfg : PrepConfig) (dt : DataType) (choice1 choice2 : List Nat)
    (ins outs : List (List ℚ)) : Except PyErr (List (List ℚ) × List (List ℚ)) :=
  match (if dt = DataType.validation || truthyOpt cfg.val_down_sampling_node then
      down_sampling_node cfg dt choice1 ins outs
    else Except.ok (ins, outs)) with
  | Except.error e => Except.error e
  | Except.ok s1 =>
      if dt = DataType.train && truthyOpt cfg.train_down_sampling_node then
        down_sampling_node cfg dt choice2 s1.1 s1.2
      else Except.ok s1

/-- The processing of one sample index inside the loop of
`_data_generation` (src lines 78-109): read the two CSV files
`ct_case_{idx + 1:04d}.csv`, record the row count, optionally down-sample,
generate edges from columns 0-2, and assemble the HDF5 group contents.
`readIn` / `readOut` give the parsed contents of a file of the inputs /
outputs directory; `globalRows` / `shapeRows` are the global-feature and
shape-coefficient CSVs; `choice` gives the random down-sampling draws. -/
def processSample (cfg : PrepConfig) (dt : DataType)
    (globalRows shapeRows : List (List ℚ))
    (readIn readOut : String → List (List ℚ))
    (choice : Nat → Nat → List Nat) (idx : Nat) : Except PyErr Sample :=
  let fn := ctCaseName (idx + 1)
  let ins := readIn fn
  let outs := readOut fn
  match downSamplingGuards cfg dt (choice idx 0) (choice idx 1) ins outs with
  | Except.error e => Except.error e
  | Except.ok s =>
      Except.ok
        ⟨idx,
         ins.length,
         s.1.map (colSlice 0 3),
         s.1.map (colSlice 3 11),
         s.1.map (colSlice 11 17),
         ((generate_distance_based_edges cfg.platform cfg.sections
             cfg.nodes_per_sections (s.1.map (colSlice 0 3))).headD []).map
           (fun row => row.map toInt32),
         colSlice 1 7 (globalRows.getD idx []),
         colSlice 7 9 (globalRows.getD idx []),
         colSlice 1 59 (shapeRows.getD idx []),
         s.2.map (colSlice 0 3),
         s.2.map (colSlice 3 4)⟩

/-- `PassiveBiVPreparationDataset._data_generation` (src lines 56-117):
split the sample indices into `len // chunk_file_size` chunks with
`np.array_split` and process every chunk into one HDF5 file whose groups
are the processed samples of that chunk. -/
def data_generation (cfg : PrepConfig) (dt : DataType)
    (globalRows shapeRows : List (List ℚ))
    (readIn readOut : String → List (List ℚ))
    (choice : Nat → Nat → List Nat) : Except PyErr (List (List Sample)) :=
  let chunks := array_split cfg.sample_indices
    (cfg.sample_indices.length / cfg.chunk_file_size)
  mapE (fun chunk =>
    mapE (processSample cfg dt globalRows shapeRows readIn readOut choice) chunk) chunks

/-- The HDF5 group name of the `j`-th sample of a file: `f"idx_{j}"`
(src line 113). -/
def groupName (j : Nat) : String :=
  String.mk ( "idx_".toList ++ natStr j)

/-- The group names of one written HDF5 file: `idx_0 .. idx_{len-1}`,
from `enumerate(datasets)` (src lines 112-113). -/
def fileGroupNames (file : List Sample) : List String :=
  (List.range file.length).map groupName

/-- The sequence of input CSV files read by `_data_generation`
(src lines 78-82): `ct_case_{idx + 1:04d}.csv` for each `idx` in
`sample_indices`, in order. -/
def dataGenerationFilesRead (sample_indices : List Nat) : List String :=
  sample_indices.map (fun idx => ctCaseName (idx + 1))

/-- The sequence of input CSV files read by `_data_node_stats`
(src lines 203-205): `ct_case_{idx + 1:04d}.csv` for
`idx in range(len(sample_indices))`. -/
def dataNodeStatsFilesRead (sample_indices : List Nat) : List String :=
  (List.range sample_indices.length).map (fun idx => ctCaseName (idx + 1))

/-- The sequence of output CSV files read by `_data_label_stats`
(src lines 254-256): the same name sequence as `_data_node_stats`,
in the outputs directory. -/
def dataLabelStatsFilesRead (sample_indices : List Nat) : List String :=
  (List.range sample_indices.length).map (fun idx => ctCaseName (idx + 1))

/-! ## `BaseTrainer.create_loss` (src `pkg/train/trainer/base_trainer.py` lines 285-293) -/

inductive LossKind : Type where
  | mseLoss : LossKind
  | euclideanDistanceMSE : LossKind
deriving DecidableEq, Repr

/-- `BaseTrainer.create_loss`, modelled statefully: the returned `Option
LossKind` is the final value of `self.loss` and an `Except.error` is a raised
`ValueError`. The source uses two separate `if` statements (not `elif`), so
the `else` of the second `if` is reached for every name other than
`euclidean_distance_mse` — including `mse`; the dead first assignment is kept
as `_loss1`. -/
def create_loss (name : String) : Except String (Option LossKind) :=
  let _loss1 : Option LossKind := if name = "mse" then some LossKind.mseLoss else none
  if name = "euclidean_distance_mse" then Except.ok (some LossKind.euclideanDistanceMSE)
  else Except.error ( "loss name do not set properly, please check: " ++ name)

/-! ## `BaseTrainer.train_step` (src lines 558-648) -/

/-- The trainer metrics dictionary, modelled extensionally. -/
def TrainMetrics : Type := String → Option ℚ

def emptyMetrics : TrainMetrics := fun _ => none

/-- `metrics[k] = v`. -/
def dictSet (m : TrainMetrics) (k : String) (v : ℚ) : TrainMetrics :=
  fun q => if q = k then some v else m q

/-- `metrics[k] = metrics[k] + v if k in metrics else v` (src lines 593-595). -/
def dictAdd (m : TrainMetrics) (k : String) (v : ℚ) : TrainMetrics :=
  fun q => if q = k then some ((m k).getD 0 + v) else m q

/-- The per-batch wall-clock / learning-rate values written by
`metrics.update(...)` (src lines 630-638). -/
structure StepTimes where
  time2device : ℚ
  time2fw : ℚ
  time2bw : ℚ
  timePerStep : ℚ
  lastLR : ℚ
deriving Repr

/-- `metrics.update(**{"time_2_device": ..., ..., "lr": ...})`. -/
def applyStepTimes (m : TrainMetrics) (tv : StepTimes) : TrainMetrics :=
  dictSet (dictSet (dictSet (dictSet (dictSet m "time_2_device" tv.time2device)
    "time_2_fw" tv.time2fw) "time_2_bw" tv.time2bw) "time_per_step" tv.timePerStep)
    "lr" tv.lastLR

/-- One loop iteration of `train_step` on the metrics dict: accumulate each
per-label loss under the key `f"{name}_train_loss"` (the `Dict` branch of
src lines 590-595; `compute_loss` always returns a dict), then overwrite the
timing / learning-rate entries. -/
def trainStepBatch (m : TrainMetrics) (lossDict : List (String × ℚ)) (tv : StepTimes) :
    TrainMetrics :=
  applyStepTimes
    (lossDict.foldl (fun acc p => dictAdd acc (p.1 ++ "_train_loss") p.2) m) tv

/-- Substring test on character lists (Python `"loss" in p`). -/
def hasSubChars (needle : List Char) : List Char → Bool
  | [] => needle.isPrefixOf []
  | c :: cs => needle.isPrefixOf (c :: cs) || hasSubChars needle cs

/-- The final-division guard of `train_step` (src lines 644-646):
`"loss" in p or "error" in p`. -/
def lossOrErrorKey (p : String) : Bool :=
  hasSubChars "loss".toList p.toList || hasSubChars "error".toList p.toList

/-- `BaseTrainer.train_step`: process at most `per_epoch_steps` batches
(`if batch == per_epoch_steps: break`), accumulate metrics, then divide the
entries whose name contains `loss` or `error` by the number of processed
batches. Each element of `batches` is the per-label loss dict of one batch
plus its timing values; the pair returned is the final metrics dict and the
final value of the `batch` counter. -/
def train_step (per_epoch_steps : Option Nat)
    (batches : List (List (String × ℚ) × StepTimes)) : TrainMetrics × Nat :=
  let processed := match per_epoch_steps with
    | some k => batches.take k
    | none => batches
  let m := processed.foldl (fun acc b => trainStepBatch acc b.1 b.2) emptyMetrics
  (fun q => (m q).map (fun x => if lossOrErrorKey q then x / processed.length else x),
   processed.length)

/-- The total contribution of the processed batches to metrics key `q`. -/
def lossKeySum (batches : List (List (String × ℚ) × StepTimes)) (q : String) : ℚ :=
  (batches.map (fun b =>
    ((b.1.filter (fun p => decide (p.1 ++ "_train_loss" = q))).map Prod.snd).sum)).sum

/-- Whether any processed batch contributes to metrics key `q`. -/
def lossKeyMentioned (batches : List (List (String × ℚ) × StepTimes)) (q : String) : Bool :=
  batches.any (fun b => b.1.any (fun p => decide (p.1 ++ "_train_loss" = q)))

/-! ## Normalization transforms (src `pkg/train/module/data_transform.py`) -/

/-- First-match association-list lookup (a Python dict access / `in` test). -/
def alookup {β : Type} (k : String) : List (String × β) → Option β
  | [] => none
  | p :: ps => if p.1 = k then some p.2 else alookup k ps

/-- Per-feature statistics held by `MaxMinNorm.feature_config`:
the `max_val` and `min_val` vectors. -/
structure MaxMinStats where
  maxVal : List ℚ
  minVal : List ℚ
deriving DecidableEq, Repr

/-- `MaxMinNorm`'s configuration: the loaded statistics and the
`global_scaling` / `coarse_dim` flags. -/
structure MaxMinNormCfg where
  stats : List (String × MaxMinStats)
  global_scaling : Bool
  coarse_dim : Bool
deriving Repr

/-- Greatest element of a list of rationals (`torch.max` over the values;
meaningful for nonempty input, as in the source). -/
def listMax (l : List ℚ) : ℚ := l.foldl max (l.headD 0)

/-- Least element of a list of rationals (`torch.min`). -/
def listMin (l : List ℚ) : ℚ := l.foldl min (l.headD 0)

/-- The column values `array[:, j]` of a 2-D tensor. -/
def colVals (mat : List (List ℚ)) (j : Nat) : List ℚ :=
  mat.map (fun r => r.getD j 0)

/-- `torch.max(array, 0).values`: per-column maxima along dimension 0
(`MaxMinNorm._calculate_max_min`, src lines 276-286). -/
def colMaxVec (mat : List (List ℚ)) : List ℚ :=
  (List.range (mat.headD []).length).map (fun j => listMax (colVals mat j))

/-- `torch.min(array, 0).values`: per-column minima along dimension 0. -/
def colMinVec (mat : List (List ℚ)) : List ℚ :=
  (List.range (mat.headD []).length).map (fun j => listMin (colVals mat j))

/-- One entry of `(array - min_val) / (max_val - min_val)`. -/
def mmEntry (x mn mx : ℚ) : ℚ := (x - mn) / (mx - mn)

/-- `MaxMinNorm._normal_max_min_transform` (src lines 288-300) with
vector-valued `max_val` / `min_val`, broadcast across the rows. -/
def normalMaxMinTransform (mat : List (List ℚ)) (mx mn : List ℚ) : List (List ℚ) :=
  mat.map (fun row =>
    (List.range row.length).map (fun j => mmEntry (row.getD j 0) (mn.getD j 0) (mx.getD j 0)))

/-- `_normal_max_min_transform` with scalar `max_val` / `min_val`
(the `coarse_dim` branch, src lines 257-258 / 270-271). -/
def normalMaxMinTransformScalar (mat : List (List ℚ)) (mx mn : ℚ) : List (List ℚ) :=
  mat.map (fun row => row.map (fun x => mmEntry x mn mx))

/-- The body of `MaxMinNorm.__call__` for one named tensor (src lines
248-259 / 261-272): statistics present ⇒ pick the max / min source per the
`global_scaling` flag, optionally coarsen, then min-max transform;
statistics absent ⇒ the tensor is left unchanged. -/
def maxMinApply (cfg : MaxMinNormCfg) (name : String) (fea : List (List ℚ)) :
    List (List ℚ) :=
  match alookup name cfg.stats with
  | none => fea
  | some st =>
      let mx := if cfg.global_scaling then st.maxVal else colMaxVec fea
      let mn := if cfg.global_scaling then st.minVal else colMinVec fea
      if cfg.coarse_dim then normalMaxMinTransformScalar fea (listMax mx) (listMin mn)
      else normalMaxMinTransform fea mx mn

/-- `MaxMinNorm.__call__` on one dict (the same loop runs over the context
dict and the feature dict). -/
def maxMinProcessDict (cfg : MaxMinNormCfg) (d : List (String × List (List ℚ))) :
    List (String × List (List ℚ)) :=
  d.map (fun p => (p.1, maxMinApply cfg p.1 p.2))

/-- `MaxMinNorm.__call__` (src lines 235-274). -/
def maxMinNormCall (cfg : MaxMinNormCfg)
    (sample : List (String × List (List ℚ)) × List (String × List (List ℚ))) :
    List (String × List (List ℚ)) × List (String × List (List ℚ)) :=
  (maxMinProcessDict cfg sample.1, maxMinProcessDict cfg sample.2)

/-- Per-feature statistics held by `NormalNorm.feature_config`:
the `mean_val` and `std_val` vectors. -/
structure NormalStats where
  meanVal : List ℚ
  stdVal : List ℚ
deriving DecidableEq, Repr

/-- `NormalNorm._normal_transform` (src lines 336-348):
`(array - mean_val) / std_val`, broadcast across the rows. -/
def normalTransform (mat : List (List ℚ)) (mean std : List ℚ) : List (List ℚ) :=
  mat.map (fun row =>
    (List.range row.length).map (fun j => (row.getD j 0 - mean.getD j 0) / std.getD j 0))

/-- The body of `NormalNorm.__call__` for one named tensor (src lines
322-326 / 328-332). -/
def normalApply (stats : List (String × NormalStats)) (name : String)
    (fea : List (List ℚ)) : List (List ℚ) :=
  match alookup name stats with
  | none => fea
  | some st => normalTransform fea st.meanVal st.stdVal

/-- `NormalNorm.__call__` on one dict. -/
def normalProcessDict (stats : List (String × NormalStats))
    (d : List (String × List (List ℚ))) : List (String × List (List ℚ)) :=
  d.map (fun p => (p.1, normalApply stats p.1 p.2))

/-- `NormalNorm.__call__` (src lines 309-334). -/
def normalNormCall (stats : List (String × NormalStats))
    (sample : List (String × List (List ℚ)) × List (String × List (List ℚ))) :
    List (String × List (List ℚ)) × List (String × List (List ℚ)) :=
  (normalProcessDict stats sample.1, normalProcessDict stats sample.2)

/-! ## `pkg/utils/io.py`: `get_repo_path` -/

/-- The head part of `posixpath.dirname`: everything up to and including the
last `'/'` of the character list (empty if there is no `'/'`). -/
def dirnameHead (cs : List Char) : List Char :=
  ((cs.reverse.dropWhile (fun c => decide (c ≠ '/'))).reverse)

/-- Strip trailing `'/'` characters (`head.rstrip(sep)`). -/
def rstripSlash (cs : List Char) : List Char :=
  (cs.reverse.dropWhile (fun c => decide (c = '/'))).reverse

/-- `os.path.dirname` for POSIX paths: split at the last separator; if the
head is nonempty and not all separators, strip its trailing separators. -/
def dirname (p : String) : String :=
  let head := dirnameHead p.toList
  if head ≠ [] ∧ head.any (fun c => decide (c ≠ '/')) then String.mk (rstripSlash head)
  else String.mk head

/-- `os.path.join(d, ".git")` for POSIX paths (the second component never
starts with a separator, so: empty head ⇒ `".git"`, head ending in the
separator ⇒ plain concatenation, otherwise insert a separator). -/
def joinGit (d : String) : String :=
  if d = "" then ".git"
  else if d.toList.getLast? = some '/' then d ++ ".git"
  else d ++ "/.git"

/-- The `while` loop of `get_repo_path` (src `pkg/utils/io.py` lines 17-18),
with explicit fuel: `none` means the loop has not exited within `fuel`
iterations. `gitAt d` tells whether `os.path.exists(os.path.join(d, ".git"))`
holds; the loop exits when the current directory string is falsy (empty) or
contains a `.git` entry. -/
def repoLoop (gitAt : String → Bool) : Nat → String → Option String
  | 0, d => if d = "" ∨ gitAt (joinGit d) then some d else none
  | n + 1, d =>
      if d = "" ∨ gitAt (joinGit d) then some d
      else repoLoop gitAt n (dirname d)

/-- `get_repo_path` (src lines 12-20): start from `os.path.dirname(path)`
and walk upwards until a directory containing `.git` (or a falsy string)
is reached. -/
def get_repo_path (gitAt : String → Bool) (fuel : Nat) (path : String) : Option String :=
  repoLoop gitAt fuel (dirname path)

/-- The iterated `os.path.dirname` chain. -/
def dirIter : Nat → String → String
  | 0, d => d
  | n + 1, d => dirIter n (dirname d)

/-! ## Helper lemmas -/

theorem chunksBySizes_length {α : Type} (sizes : List Nat) (xs : List α) :
    (chunksBySizes sizes xs).length = sizes.length := by
  induction sizes generalizing xs with
  | nil => rfl
  | cons s ss ih => simp [chunksBySizes, ih]

theorem splitSizes_length (L n : Nat) (hn : 0 < n) : (splitSizes L n).length = n := by
  unfold splitSizes
  rw [List.length_append, List.length_replicate, List.length_replicate]
  have : L % n < n := Nat.mod_lt _ hn
  omega

/-! ## Claim theorems -/

/-- C6: `BaseTrainer.create_loss` is claimed to configure `nn.MSELoss` for the
name `mse` without error; because the source uses `if` / `if` / `else` instead
of `if` / `elif` / `else`, the `else` branch of the second `if` raises
`ValueError` for the name `mse` as well. This theorem evaluates the embedded
`create_loss` at the failing input. -/
theorem create_loss_mse_raises :
    create_loss "mse" =
      Except.error ( "loss name do not set properly, please check: mse") := by
  rfl

/-- C5: the statistics passes (`_data_node_stats`, `_data_label_stats`) read
the file sequence `ct_case_0001.csv .. ct_case_{N:04d}.csv`, depending only on
the count of `sample_indices`; this equals the file sequence read by
`_data_generation` exactly when `sample_indices` is `0 .. N-1`. -/
theorem stats_files_read_count_only :
    (∀ xs ys : List Nat, xs.length = ys.length →
      dataNodeStatsFilesRead xs = dataNodeStatsFilesRead ys ∧
        dataLabelStatsFilesRead xs = dataLabelStatsFilesRead ys) ∧
    (∀ xs : List Nat,
      dataGenerationFilesRead xs = dataNodeStatsFilesRead xs ↔
        xs = List.range xs.length) := by
  constructor
  · intro xs ys hlen
    unfold dataNodeStatsFilesRead dataLabelStatsFilesRead
    rw [hlen]
    exact ⟨rfl, rfl⟩
  · intro xs
    constructor
    · intro h
      unfold dataGenerationFilesRead dataNodeStatsFilesRead at h
      have hinj : Function.Injective (fun idx : Nat => ctCaseName (idx + 1)) := by
        intro a b hab
        have := ctCaseName_injective hab
        omega
      exact List.map_injective_iff.mpr hinj h
    · intro h
      unfold dataGenerationFilesRead dataNodeStatsFilesRead
      conv_lhs => rw [h]

theorem stats_files_read_count_only_witness :
    dataNodeStatsFilesRead [5, 6] = dataNodeStatsFilesRead [7, 8] ∧
      (dataGenerationFilesRead [1, 0] = dataNodeStatsFilesRead [1, 0] ↔
        [1, 0] = List.range 2) :=
  ⟨(stats_files_read_count_only.1 [5, 6] [7, 8] rfl).1,
   stats_files_read_count_only.2 [1, 0]⟩

/-- C1 (counterexample): with `sample_indices = [0,1,2,3,4]` and
`chunk_file_size = 2` (so `len(sample_indices) >= chunk_file_size`),
`_data_generation` writes `5 // 2 = 2` files of 3 and 2 samples — the first
file does not hold exactly `chunk_file_size` samples, refuting the claim that
every file holds exactly `chunk_file_size` samples. -/
theorem data_generation_uneven_chunk_counterexample :
    ∃ files, data_generation
        ⟨[0, 1, 2, 3, 4], 2, [], [], none, none, "Linux"⟩ DataType.train
        [] [] (fun _ => []) (fun _ => []) (fun _ _ => []) = Except.ok files ∧
      files.map List.length = [3, 2] ∧ ¬ (∀ f ∈ files, f.length = 2) := by
  refine ⟨_, rfl, ?_, ?_⟩
  · rfl
  · decide

/-- C1 (amended): when `chunk_file_size` additionally divides
`len(sample_indices)`, `_data_generation` writes `len // chunk_file_size`
files, each holding exactly `chunk_file_size` samples with groups
`idx_0 .. idx_{chunk_file_size - 1}`. -/
theorem data_generation_chunking_amended
    (cfg : PrepConfig) (dt : DataType) (globalRows shapeRows : List (List ℚ))
    (readIn readOut : String → List (List ℚ)) (choice : Nat → Nat → List Nat)
    (files : List (List Sample))
    (h : data_generation cfg dt globalRows shapeRows readIn readOut choice
      = Except.ok files)
    (h1 : 0 < cfg.chunk_file_size)
    (h2 : cfg.chunk_file_size ∣ cfg.sample_indices.length)
    (h3 : cfg.chunk_file_size ≤ cfg.sample_indices.length) :
    files.length = cfg.sample_indices.length / cfg.chunk_file_size ∧
    ∀ f ∈ files, f.length = cfg.chunk_file_size ∧
      fileGroupNames f = (List.range cfg.chunk_file_size).map groupName := by
  obtain ⟨q, hq⟩ := h2
  have hqpos : 0 < q := by
    rcases Nat.eq_zero_or_pos q with h0 | h0
    · rw [h0, Nat.mul_zero] at hq
      omega
    · exact h0
  have hm : cfg.sample_indices.length / cfg.chunk_file_size = q := by
    rw [hq, Nat.mul_div_cancel_left _ h1]
  have hLm : cfg.sample_indices.length / q = cfg.chunk_file_size := by
    rw [hq, Nat.mul_div_cancel _ hqpos]
  have hdvd2 : q ∣ cfg.sample_indices.length :=
    ⟨cfg.chunk_file_size, by rw [hq]; ring⟩
  simp only [data_generation] at h
  rw [hm] at h
  have hlen := mapE_ok_length _ _ _ h
  have hchunks : (array_split cfg.sample_indices q).length = q := by
    unfold array_split
    rw [chunksBySizes_length, splitSizes_length _ _ hqpos]
  constructor
  · rw [hlen, hchunks, hm]
  · intro f hf
    obtain ⟨c, hc, hcf⟩ := mapE_ok_mem _ _ _ h f hf
    have hclen : c.length = cfg.sample_indices.length / q :=
      array_split_length_of_dvd _ q hqpos hdvd2 c hc
    have hflen : f.length = cfg.chunk_file_size := by
      rw [mapE_ok_length _ _ _ hcf, hclen, hLm]
    refine ⟨hflen, ?_⟩
    unfold fileGroupNames
    rw [hflen]

theorem data_generation_chunking_amended_witness :
    ([[⟨0, 0, [], [], [], [], [], [], [], [], []⟩,
       ⟨1, 0, [], [], [], [], [], [], [], [], []⟩],
      [⟨2, 0, [], [], [], [], [], [], [], [], []⟩,
       ⟨3, 0, [], [], [], [], [], [], [], [], []⟩]] : List (List Sample)).length = 2 ∧
    ∀ f ∈ ([[⟨0, 0, [], [], [], [], [], [], [], [], []⟩,
       ⟨1, 0, [], [], [], [], [], [], [], [], []⟩],
      [⟨2, 0, [], [], [], [], [], [], [], [], []⟩,
       ⟨3, 0, [], [], [], [], [], [], [], [], []⟩]] : List (List Sample)),
      f.length = 2 ∧ fileGroupNames f = (List.range 2).map groupName :=
  data_generation_chunking_amended
    ⟨[0, 1, 2, 3], 2, [], [], none, none, "Linux"⟩ DataType.train [] []
    (fun _ => []) (fun _ => []) (fun _ _ => []) _ rfl (by decide) (by decide)
    (by decide)

theorem repoLoop_sound (gitAt : String → Bool) :
    ∀ (fuel : Nat) (d r : String), repoLoop gitAt fuel d = some r →
      ∃ k ≤ fuel, r = dirIter k d ∧ (r = "" ∨ gitAt (joinGit r) = true) ∧
        ∀ j < k, ¬ (dirIter j d = "" ∨ gitAt (joinGit (dirIter j d)) = true) := by
  intro fuel
  induction fuel with
  | zero =>
      intro d r h
      rw [repoLoop] at h
      by_cases hc : d = "" ∨ gitAt (joinGit d) = true
      · rw [if_pos hc] at h
        cases h
        exact ⟨0, Nat.le_refl 0, rfl, hc, fun j hj => absurd hj (Nat.not_lt_zero j)⟩
      · rw [if_neg hc] at h
        cases h
  | succ n ih =>
      intro d r h
      rw [repoLoop] at h
      by_cases hc : d = "" ∨ gitAt (joinGit d) = true
      · rw [if_pos hc] at h
        cases h
        exact ⟨0, Nat.zero_le _, rfl, hc, fun j hj => absurd hj (Nat.not_lt_zero j)⟩
      · rw [if_neg hc] at h
        obtain ⟨k, hk, hr, hstop, hbefore⟩ := ih (dirname d) r h
        refine ⟨k + 1, by omega, hr, hstop, ?_⟩
        intro j hj
        cases j with
        | zero => simpa [dirIter] using hc
        | succ j' =>
            have := hbefore j' (by omega)
            simpa [dirIter] using this

theorem repoLoop_complete (gitAt : String → Bool) :
    ∀ (k : Nat) (d : String),
      (dirIter k d = "" ∨ gitAt (joinGit (dirIter k d)) = true) →
      (∀ j < k, ¬ (dirIter j d = "" ∨ gitAt (joinGit (dirIter j d)) = true)) →
      ∀ fuel, k ≤ fuel → repoLoop gitAt fuel d = some (dirIter k d) := by
  intro k
  induction k with
  | zero =>
      intro d hstop _ fuel _
      have hstop' : d = "" ∨ gitAt (joinGit d) = true := hstop
      have hrun : repoLoop gitAt fuel d = some d := by
        cases fuel with
        | zero => rw [repoLoop, if_pos hstop']
        | succ m => rw [repoLoop, if_pos hstop']
      rw [hrun]
      rfl
  | succ n ih =>
      intro d hstop hbef fuel hfuel
      have hd : ¬ (d = "" ∨ gitAt (joinGit d) = true) := by
        have := hbef 0 (Nat.succ_pos n)
        simpa [dirIter] using this
      cases fuel with
      | zero => omega
      | succ m =>
          rw [repoLoop, if_neg hd]
          have hshift : ∀ j < n,
              ¬ (dirIter j (dirname d) = "" ∨
                gitAt (joinGit (dirIter j (dirname d))) = true) := by
            intro j hj
            have := hbef (j + 1) (by omega)
            simpa [dirIter] using this
          have hstop2 : dirIter n (dirname d) = "" ∨
              gitAt (joinGit (dirIter n (dirname d))) = true := by
            simpa [dirIter] using hstop
          have := ih (dirname d) hstop2 hshift m (by omega)
          simpa [dirIter] using this

/-- C10 (counterexample): on an absolute path none of whose iterated parent
directories contains a `.git` entry, `get_repo_path` never terminates — the
claim that it terminates for every input path fails. With `gitAt` constantly
false and path `/a`, the loop state reaches `/` and stays there, because
`os.path.dirname("/") == "/"` is truthy. -/
theorem get_repo_path_nonterminating_counterexample :
    ¬ ∃ (n : Nat) (r : String),
      get_repo_path (fun _ => false) n "/a" = some r := by
  have hroot : ∀ n, repoLoop (fun _ => false) n "/" = none := by
    intro n
    induction n with
    | zero =>
        rw [repoLoop, if_neg]
        decide
    | succ m ih =>
        rw [repoLoop, if_neg]
        · rw [(by decide : dirname "/" = "/")]
          exact ih
        · decide
  rintro ⟨n, r, h⟩
  unfold get_repo_path at h
  rw [(by decide : dirname "/a" = "/"), hroot n] at h
  exact Option.noConfusion h

/-- C10 (amended): `get_repo_path` iterates `os.path.dirname` starting from
the parent of the input path. Soundness: whenever the loop exits within its
fuel, the result is the first element of that chain that is empty or whose
directory contains a `.git` entry — i.e. the nearest such ancestor, and the
empty string exactly when the chain emptied first. Completeness: if the
`k`-th chain element is the first empty-or-`.git` element, the loop exits
with it given fuel at least `k`. (On absolute paths whose chain reaches `/`
without finding `.git`, no such `k` exists and the function does not
terminate.) -/
theorem get_repo_path_amended (gitAt : String → Bool) (fuel : Nat) (path : String) :
    (∀ r, get_repo_path gitAt fuel path = some r →
      ∃ k ≤ fuel, r = dirIter k (dirname path) ∧
        (r = "" ∨ gitAt (joinGit r) = true) ∧
        ∀ j < k, ¬ (dirIter j (dirname path) = "" ∨
          gitAt (joinGit (dirIter j (dirname path))) = true)) ∧
    (∀ k, (dirIter k (dirname path) = "" ∨
        gitAt (joinGit (dirIter k (dirname path))) = true) →
      (∀ j < k, ¬ (dirIter j (dirname path) = "" ∨
        gitAt (joinGit (dirIter j (dirname path))) = true)) →
      k ≤ fuel → get_repo_path gitAt fuel path = some (dirIter k (dirname path))) :=
  ⟨fun r h => repoLoop_sound gitAt fuel (dirname path) r h,
   fun k h1 h2 h3 => repoLoop_complete gitAt k (dirname path) h1 h2 fuel h3⟩

theorem get_repo_path_amended_witness :
    get_repo_path (fun s => decide (s = "/a/.git")) 5 "/a/b/c" = some "/a" := by
  have h := (get_repo_path_amended (fun s => decide (s = "/a/.git")) 5 "/a/b/c").2
    1 (by decide) (by decide) (by decide)
  rw [(by decide : dirIter 1 (dirname "/a/b/c") = "/a")] at h
  exact h


theorem toInt32_ofNat_small (a : Nat) (h : a < 2 ^ 31) :
    toInt32 (Int.ofNat a) = Int.ofNat a := by
  show toInt32 (a : Int) = (a : Int)
  unfold toInt32
  omega

theorem map_toInt32_of_lt (l : List Nat) (n : Nat) (hn : n ≤ 2 ^ 31)
    (hl : ∀ x ∈ l, x < n) : (l.map Int.ofNat).map toInt32 = l.map Int.ofNat := by
  induction l with
  | nil => rfl
  | cons a t ih =>
      simp only [List.map_cons]
      have ha : a < 2 ^ 31 := lt_of_lt_of_le (hl a (List.mem_cons_self a t)) hn
      rw [toInt32_ofNat_small a ha]
      rw [ih (fun x hx => hl x (List.mem_cons_of_mem a hx))]

theorem sectionedEdges_cast_id (coords : List (List ℚ)) (sections : List ℚ)
    (nps : List Nat) (hsize : coords.length ≤ 2 ^ 31) :
    ((sectionedEdges coords sections nps).map (fun row => row.map Int.ofNat)).map
      (fun row => row.map toInt32) =
    (sectionedEdges coords sections nps).map (fun row => row.map Int.ofNat) := by
  rw [List.map_map]
  apply List.map_congr_left
  intro row hrow
  obtain ⟨i, _, hrowi⟩ := List.mem_map.mp hrow
  have hbound : ∀ x ∈ row, x < coords.length := by
    intro x hx
    apply mem_nodeNeighbours_lt coords sections nps i x
    rw [hrowi]
    exact hx
  exact map_toInt32_of_lt row coords.length hsize hbound

/-- C2: the two execution-backend code paths of
`_generate_distance_based_edges` — the Darwin branch calling
`generate_distance_based_edges_ny` on the batch-expanded coordinates and the
non-Darwin branch calling `generate_distance_based_edges_nb` followed by
`[np.newaxis, :].astype(np.int32)` — produce equal edge-index arrays: a
leading batch axis of length 1, one neighbour row per node, and every entry
within the `int32` range. (The backend implementations are missing from the
sources and are spec-modelled by the shared `sectionedEdges` heuristic; the
theorem verifies the two wrappers' batching / indexing / casting plumbing.) -/
theorem edge_backends_agree (platform : String) (coords : List (List ℚ))
    (sections : List ℚ) (nps : List Nat) (hplat : platform ≠ DARWIN)
    (hsize : coords.length ≤ 2 ^ 31) :
    generate_distance_based_edges DARWIN sections nps coords =
      generate_distance_based_edges platform sections nps coords ∧
    (generate_distance_based_edges DARWIN sections nps coords).length = 1 ∧
    ∀ batch ∈ generate_distance_based_edges DARWIN sections nps coords,
      batch.length = coords.length ∧
      ∀ row ∈ batch, ∀ e ∈ row, 0 ≤ e ∧ e < 2 ^ 31 := by
  have hdarwin : generate_distance_based_edges DARWIN sections nps coords =
      [(sectionedEdges coords sections nps).map (fun row => row.map Int.ofNat)] := by
    unfold generate_distance_based_edges
    rw [if_pos rfl]
    unfold generate_distance_based_edges_ny
    simp [List.getD]
  have hother : generate_distance_based_edges platform sections nps coords =
      [((sectionedEdges coords sections nps).map (fun row => row.map Int.ofNat)).map
        (fun row => row.map toInt32)] := by
    unfold generate_distance_based_edges
    rw [if_neg hplat]
    unfold generate_distance_based_edges_nb
    rfl
  refine ⟨?_, ?_, ?_⟩
  · rw [hdarwin, hother, sectionedEdges_cast_id coords sections nps hsize]
  · rw [hdarwin]
    rfl
  · intro batch hbatch
    rw [hdarwin] at hbatch
    simp only [List.mem_singleton] at hbatch
    subst hbatch
    constructor
    · unfold sectionedEdges
      rw [List.length_map, List.length_map, List.length_range]
    · intro row hrow e he
      obtain ⟨nrow, hnrow, hrowe⟩ := List.mem_map.mp hrow
      obtain ⟨i, _, hrowi⟩ := List.mem_map.mp hnrow
      have hemem : e ∈ nrow.map Int.ofNat := by
        rw [hrowe]
        exact he
      obtain ⟨j, hjmem, hje⟩ := List.mem_map.mp hemem
      have hjmem2 : j ∈ nodeNeighbours coords sections nps i := by
        rw [hrowi]
        exact hjmem
      have hjlt : j < coords.length :=
        mem_nodeNeighbours_lt coords sections nps i j hjmem2
      have hj31 : j < 2 ^ 31 := lt_of_lt_of_le hjlt hsize
      constructor
      · rw [← hje]
        show (0 : Int) ≤ (j : Int)
        omega
      · rw [← hje]
        show (j : Int) < 2 ^ 31
        omega

theorem edge_backends_agree_witness :
    generate_distance_based_edges DARWIN [2, 10] [1, 1]
        [[0, 0, 0], [1, 0, 0], [3, 0, 0]] =
      generate_distance_based_edges "Linux" [2, 10] [1, 1]
        [[0, 0, 0], [1, 0, 0], [3, 0, 0]] ∧
    (generate_distance_based_edges DARWIN [2, 10] [1, 1]
        [[0, 0, 0], [1, 0, 0], [3, 0, 0]]).length = 1 :=
  ⟨(edge_backends_agree "Linux" [[0, 0, 0], [1, 0, 0], [3, 0, 0]] [2, 10] [1, 1]
      (by decide) (by decide)).1,
   (edge_backends_agree "Linux" [[0, 0, 0], [1, 0, 0], [3, 0, 0]] [2, 10] [1, 1]
      (by decide) (by decide)).2.1⟩

/-- C3: for every position `p` in `sample_indices`, the sample group written
by `_data_generation` for `idx = sample_indices[p]` (the `p`-th group over
all chunked files) is built from the CSV files `ct_case_{idx + 1:04d}.csv`:
`points` is the input row count before any down-sampling, and — on the
possibly down-sampled rows — `node_coord` is columns 0-2 of the input rows,
`laplace_coord` columns 3-10, `fiber_and_sheet` columns 11-16,
`displacement` columns 0-2 of the output rows, `stress` column 3, and
`edges_indices` the `int32`-cast edge array generated from the node
coordinates. -/
theorem data_generation_sample_contents
    (cfg : PrepConfig) (dt : DataType) (globalRows shapeRows : List (List ℚ))
    (readIn readOut : String → List (List ℚ)) (choice : Nat → Nat → List Nat)
    (files : List (List Sample))
    (h : data_generation cfg dt globalRows shapeRows readIn readOut choice
      = Except.ok files)
    (h1 : 0 < cfg.chunk_file_size)
    (h2 : cfg.chunk_file_size ≤ cfg.sample_indices.length)
    (p : Nat) (hp : p < cfg.sample_indices.length) :
    ∃ sel : List (List ℚ) × List (List ℚ),
      downSamplingGuards cfg dt (choice (cfg.sample_indices.getD p 0) 0)
        (choice (cfg.sample_indices.getD p 0) 1)
        (readIn (ctCaseName (cfg.sample_indices.getD p 0 + 1)))
        (readOut (ctCaseName (cfg.sample_indices.getD p 0 + 1))) = Except.ok sel ∧
      files.flatten.getD p default =
        ⟨cfg.sample_indices.getD p 0,
         (readIn (ctCaseName (cfg.sample_indices.getD p 0 + 1))).length,
         sel.1.map (colSlice 0 3),
         sel.1.map (colSlice 3 11),
         sel.1.map (colSlice 11 17),
         ((generate_distance_based_edges cfg.platform cfg.sections
             cfg.nodes_per_sections (sel.1.map (colSlice 0 3))).headD []).map
           (fun row => row.map toInt32),
         colSlice 1 7 (globalRows.getD (cfg.sample_indices.getD p 0) []),
         colSlice 7 9 (globalRows.getD (cfg.sample_indices.getD p 0) []),
         colSlice 1 59 (shapeRows.getD (cfg.sample_indices.getD p 0) []),
         sel.2.map (colSlice 0 3),
         sel.2.map (colSlice 3 4)⟩ := by
  have hnpos : 0 < cfg.sample_indices.length / cfg.chunk_file_size :=
    Nat.div_pos h2 h1
  simp only [data_generation] at h
  have hflat := mapE_flatten _ _ _ h
  rw [array_split_flatten _ _ hnpos] at hflat
  have hstep := mapE_ok_getD _ _ _ 0 default hflat p hp
  simp only [processSample] at hstep
  cases hds : downSamplingGuards cfg dt (choice (cfg.sample_indices.getD p 0) 0)
      (choice (cfg.sample_indices.getD p 0) 1)
      (readIn (ctCaseName (cfg.sample_indices.getD p 0 + 1)))
      (readOut (ctCaseName (cfg.sample_indices.getD p 0 + 1))) with
  | error e =>
      rw [hds] at hstep
      cases hstep
  | ok sel =>
      rw [hds] at hstep
      refine ⟨sel, rfl, ?_⟩
      injection hstep with hS
      exact hS.symm

theorem data_generation_sample_contents_witness :
    ∃ sel : List (List ℚ) × List (List ℚ),
      downSamplingGuards ⟨[0], 1, [], [], none, none, "Linux"⟩ DataType.train [] []
          [[1, 2, 3, 4, 5, 6, 7, 8, 9, 10, 11, 12, 13, 14, 15, 16, 17]]
          [[21, 22, 23, 24]] = Except.ok sel ∧
      ([[⟨0, 1, [[1, 2, 3]], [[4, 5, 6, 7, 8, 9, 10, 11]],
          [[12, 13, 14, 15, 16, 17]], [[]], [1, 2, 3, 4, 5, 6], [7, 8], [1],
          [[21, 22, 23]], [[24]]⟩]] :
        List (List Sample)).flatten.getD 0 default =
        ⟨0, 1, sel.1.map (colSlice 0 3), sel.1.map (colSlice 3 11),
         sel.1.map (colSlice 11 17),
         ((generate_distance_based_edges "Linux" [] []
             (sel.1.map (colSlice 0 3))).headD []).map (fun row => row.map toInt32),
         colSlice 1 7 [0, 1, 2, 3, 4, 5, 6, 7, 8], colSlice 7 9 [0, 1, 2, 3, 4, 5, 6, 7, 8],
         colSlice 1 59 [0, 1], sel.2.map (colSlice 0 3), sel.2.map (colSlice 3 4)⟩ :=
  data_generation_sample_contents ⟨[0], 1, [], [], none, none, "Linux"⟩
    DataType.train [[0, 1, 2, 3, 4, 5, 6, 7, 8]] [[0, 1]]
    (fun _ => [[1, 2, 3, 4, 5, 6, 7, 8, 9, 10, 11, 12, 13, 14, 15, 16, 17]])
    (fun _ => [[21, 22, 23, 24]]) (fun _ _ => []) _ rfl (by decide) (by decide)
    0 (by decide)

/-- C4: with the validation data type, `_data_generation` calls
`_down_sampling_node` for every sample regardless of whether
`val_down_sampling_node` is configured (src line 88); inside, the requested
count is `val_down_sampling_node`, so preparation of one sample raises
exactly when that setting is absent (`None > num_nodes` raises `TypeError`)
or exceeds the available node count (`ValueError`); in particular a missing
`val_down_sampling_node` makes every validation sample fail with
`TypeError`. -/
theorem validation_down_sampling_required
    (cfg : PrepConfig) (globalRows shapeRows : List (List ℚ))
    (readIn readOut : String → List (List ℚ)) (choice : Nat → Nat → List Nat)
    (idx : Nat) (dt : DataType) (hdt : dt = DataType.validation) :
    ((∃ e, processSample cfg dt globalRows shapeRows readIn readOut choice idx
        = Except.error e) ↔
      (cfg.val_down_sampling_node = none ∨
        ∃ k, cfg.val_down_sampling_node = some k ∧
          (readIn (ctCaseName (idx + 1))).length < k)) ∧
    (cfg.val_down_sampling_node = none →
      processSample cfg dt globalRows shapeRows readIn readOut choice idx
        = Except.error PyErr.typeError) := by
  subst hdt
  cases hval : cfg.val_down_sampling_node with
  | none =>
      have hps : processSample cfg DataType.validation globalRows shapeRows readIn
          readOut choice idx = Except.error PyErr.typeError := by
        simp [processSample, downSamplingGuards, down_sampling_node, hval]
      refine ⟨⟨fun _ => Or.inl rfl, fun _ => ⟨PyErr.typeError, hps⟩⟩, fun _ => hps⟩
  | some k =>
      by_cases hlen : (readIn (ctCaseName (idx + 1))).length < k
      · have hps : processSample cfg DataType.validation globalRows shapeRows readIn
            readOut choice idx = Except.error PyErr.valueError := by
          simp [processSample, downSamplingGuards, down_sampling_node, hval, hlen]
        refine ⟨⟨fun _ => Or.inr ⟨k, rfl, hlen⟩, fun _ => ⟨PyErr.valueError, hps⟩⟩, ?_⟩
        intro h0
        cases h0
      · have hok : ∃ s, processSample cfg DataType.validation globalRows shapeRows
            readIn readOut choice idx = Except.ok s := by
          simp [processSample, downSamplingGuards, down_sampling_node, hval, hlen]
        refine ⟨⟨?_, ?_⟩, ?_⟩
        · rintro ⟨e, he⟩
          obtain ⟨s, hs⟩ := hok
          rw [hs] at he
          cases he
        · rintro (h0 | ⟨k', hk', hlt⟩)
          · cases h0
          · injection hk' with hkk
            subst hkk
            exact absurd hlt hlen
        · intro h0
          cases h0

theorem validation_down_sampling_required_witness :
    processSample ⟨[], 1, [], [], none, none, "Linux"⟩ DataType.validation [] []
      (fun _ => []) (fun _ => []) (fun _ _ => []) 0 = Except.error PyErr.typeError :=
  (validation_down_sampling_required ⟨[], 1, [], [], none, none, "Linux"⟩ [] []
    (fun _ => []) (fun _ => []) (fun _ _ => []) 0 DataType.validation rfl).2 rfl

theorem foldl_dictAdd_lookup (l : List (String × ℚ)) (m : TrainMetrics) (q : String) :
    (l.foldl (fun acc p => dictAdd acc (p.1 ++ "_train_loss") p.2) m) q =
      if l.any (fun p => decide (p.1 ++ "_train_loss" = q)) then
        some ((m q).getD 0 +
          ((l.filter (fun p => decide (p.1 ++ "_train_loss" = q))).map Prod.snd).sum)
      else m q := by
  induction l generalizing m with
  | nil => simp
  | cons p ps ih =>
      simp only [List.foldl_cons, List.any_cons, List.filter_cons]
      by_cases hpq : p.1 ++ "_train_loss" = q
      · have hdec : decide (p.1 ++ "_train_loss" = q) = true := decide_eq_true hpq
        have hmq : (dictAdd m (p.1 ++ "_train_loss") p.2) q
            = some ((m q).getD 0 + p.2) := by
          unfold dictAdd
          rw [if_pos hpq.symm, hpq]
        rw [ih]
        simp only [hdec, Bool.true_or, List.map_cons, List.sum_cons, if_true]
        by_cases hps : ps.any (fun p => decide (p.1 ++ "_train_loss" = q)) = true
        · rw [if_pos hps, hmq]
          simp only [Option.getD_some]
          congr 1
          ring
        · rw [if_neg hps, hmq]
          have hfil : ps.filter (fun p => decide (p.1 ++ "_train_loss" = q)) = [] := by
            rw [List.filter_eq_nil_iff]
            intro a ha hdec2
            exact hps (List.any_eq_true.mpr ⟨a, ha, hdec2⟩)
          rw [hfil]
          simp only [List.map_nil, List.sum_nil]
          congr 1
          ring
      · have hdec : decide (p.1 ++ "_train_loss" = q) = false := decide_eq_false hpq
        have hmq : (dictAdd m (p.1 ++ "_train_loss") p.2) q = m q := by
          unfold dictAdd
          rw [if_neg (fun hq => hpq hq.symm)]
        rw [ih, hmq]
        simp only [hdec, Bool.false_or, Bool.false_eq_true, if_false]

theorem applyStepTimes_other (m : TrainMetrics) (tv : StepTimes) (q : String)
    (h1 : q ≠ "time_2_device") (h2 : q ≠ "time_2_fw") (h3 : q ≠ "time_2_bw")
    (h4 : q ≠ "time_per_step") (h5 : q ≠ "lr") :
    applyStepTimes m tv q = m q := by
  unfold applyStepTimes dictSet
  rw [if_neg h5, if_neg h4, if_neg h3, if_neg h2, if_neg h1]

theorem lossKeyMentioned_cons (b : List (String × ℚ) × StepTimes)
    (bs : List (List (String × ℚ) × StepTimes)) (q : String) :
    lossKeyMentioned (b :: bs) q =
      (b.1.any (fun p => decide (p.1 ++ "_train_loss" = q)) || lossKeyMentioned bs q) := by
  simp [lossKeyMentioned]

theorem lossKeySum_cons (b : List (String × ℚ) × StepTimes)
    (bs : List (List (String × ℚ) × StepTimes)) (q : String) :
    lossKeySum (b :: bs) q =
      ((b.1.filter (fun p => decide (p.1 ++ "_train_loss" = q))).map Prod.snd).sum
        + lossKeySum bs q := by
  simp [lossKeySum]

theorem filter_sum_zero_of_not_any (l : List (String × ℚ)) (q : String)
    (h : ¬ l.any (fun p => decide (p.1 ++ "_train_loss" = q)) = true) :
    ((l.filter (fun p => decide (p.1 ++ "_train_loss" = q))).map Prod.snd).sum = 0 := by
  have hfil : l.filter (fun p => decide (p.1 ++ "_train_loss" = q)) = [] := by
    rw [List.filter_eq_nil_iff]
    intro a ha hdec
    exact h (List.any_eq_true.mpr ⟨a, ha, hdec⟩)
  rw [hfil]
  rfl

theorem lossKeySum_zero_of_not_mentioned (bs : List (List (String × ℚ) × StepTimes))
    (q : String) (h : ¬ lossKeyMentioned bs q = true) : lossKeySum bs q = 0 := by
  unfold lossKeySum
  have hall : ∀ b ∈ bs, ((b.1.filter
      (fun p => decide (p.1 ++ "_train_loss" = q))).map Prod.snd).sum = (0 : ℚ) := by
    intro b hb
    apply filter_sum_zero_of_not_any
    intro hany
    apply h
    unfold lossKeyMentioned
    exact List.any_eq_true.mpr ⟨b, hb, hany⟩
  rw [List.map_congr_left hall]
  simp

theorem foldl_trainStepBatch_lookup (bs : List (List (String × ℚ) × StepTimes))
    (m : TrainMetrics) (q : String)
    (h1 : q ≠ "time_2_device") (h2 : q ≠ "time_2_fw") (h3 : q ≠ "time_2_bw")
    (h4 : q ≠ "time_per_step") (h5 : q ≠ "lr") :
    (bs.foldl (fun acc b => trainStepBatch acc b.1 b.2) m) q =
      if lossKeyMentioned bs q then some ((m q).getD 0 + lossKeySum bs q) else m q := by
  induction bs generalizing m with
  | nil => simp [lossKeyMentioned, lossKeySum]
  | cons b bs ih =>
      rw [List.foldl_cons, lossKeyMentioned_cons, lossKeySum_cons, ih]
      have hstep : trainStepBatch m b.1 b.2 q =
          (b.1.foldl (fun acc p => dictAdd acc (p.1 ++ "_train_loss") p.2) m) q := by
        unfold trainStepBatch
        exact applyStepTimes_other _ _ q h1 h2 h3 h4 h5
      rw [hstep, foldl_dictAdd_lookup]
      by_cases hb : b.1.any (fun p => decide (p.1 ++ "_train_loss" = q)) = true
      · by_cases hbs : lossKeyMentioned bs q = true
        · simp only [hb, hbs, Bool.true_or, if_true, Option.getD_some]
          congr 1
          ring
        · simp only [hb, hbs, Bool.true_or, Bool.false_eq_true, if_true, if_false,
            Option.getD_some]
          rw [lossKeySum_zero_of_not_mentioned bs q hbs]
          congr 1
          ring
      · by_cases hbs : lossKeyMentioned bs q = true
        · simp only [hb, hbs, Bool.or_true, Bool.false_eq_true, if_true, if_false,
            Option.getD_some]
          rw [filter_sum_zero_of_not_any b.1 q hb]
          congr 1
          ring
        · have hbf : b.1.any (fun p => decide (p.1 ++ "_train_loss" = q)) = false := by
            cases hx : b.1.any (fun p => decide (p.1 ++ "_train_loss" = q))
            · rfl
            · exact absurd hx hb
          have hbsf : lossKeyMentioned bs q = false := by
            cases hx : lossKeyMentioned bs q
            · rfl
            · exact absurd hx hbs
          simp only [hb, hbs, hbf, hbsf, Bool.false_or, Bool.false_eq_true, if_false]

/-- C7: `train_step` processes at most `per_epoch_steps` batches when it is
set (exactly `min per_epoch_steps (number of batches)`), and in the returned
metrics dictionary every entry whose name contains `loss` or `error` equals
the accumulated sum over the processed batches divided by the number of
processed batches. -/
theorem train_step_metrics
    (k : Nat) (batches : List (List (String × ℚ) × StepTimes)) (q : String)
    (hq : lossOrErrorKey q = true) :
    (train_step (some k) batches).2 = min k batches.length ∧
    (train_step (some k) batches).2 ≤ k ∧
    (train_step (some k) batches).1 q =
      (if lossKeyMentioned (batches.take k) q then
        some (lossKeySum (batches.take k) q / (((batches.take k).length : ℚ)))
      else none) := by
  have h1 : q ≠ "time_2_device" := by
    intro he
    rw [he] at hq
    exact absurd hq (by decide)
  have h2 : q ≠ "time_2_fw" := by
    intro he
    rw [he] at hq
    exact absurd hq (by decide)
  have h3 : q ≠ "time_2_bw" := by
    intro he
    rw [he] at hq
    exact absurd hq (by decide)
  have h4 : q ≠ "time_per_step" := by
    intro he
    rw [he] at hq
    exact absurd hq (by decide)
  have h5 : q ≠ "lr" := by
    intro he
    rw [he] at hq
    exact absurd hq (by decide)
  have hlen : (train_step (some k) batches).2 = (batches.take k).length := rfl
  refine ⟨?_, ?_, ?_⟩
  · rw [hlen, List.length_take]
  · rw [hlen, List.length_take]
    exact min_le_left _ _
  · have hms : (train_step (some k) batches).1 q =
        (((batches.take k).foldl (fun acc b => trainStepBatch acc b.1 b.2)
          emptyMetrics) q).map
          (fun x => if lossOrErrorKey q then x / (((batches.take k).length : ℚ)) else x) :=
      rfl
    rw [hms, foldl_trainStepBatch_lookup (batches.take k) emptyMetrics q h1 h2 h3 h4 h5]
    by_cases hm : lossKeyMentioned (batches.take k) q = true
    · rw [if_pos hm, if_pos hm]
      have hempty : (emptyMetrics q).getD 0 = (0 : ℚ) := rfl
      rw [hempty]
      simp only [Option.map_some']
      rw [if_pos hq]
      rw [zero_add]
    · rw [if_neg hm, if_neg hm]
      rfl

theorem train_step_metrics_witness :
    (train_step (some 2) [([("u", 1)], ⟨0, 0, 0, 0, 0⟩), ([("u", 2)], ⟨0, 0, 0, 0, 0⟩),
      ([("u", 5)], ⟨0, 0, 0, 0, 0⟩)]).2 = 2 ∧
    (train_step (some 2) [([("u", 1)], ⟨0, 0, 0, 0, 0⟩), ([("u", 2)], ⟨0, 0, 0, 0, 0⟩),
      ([("u", 5)], ⟨0, 0, 0, 0, 0⟩)]).1 "u_train_loss" = some (3 / 2) := by
  have h := train_step_metrics 2 [([("u", 1)], ⟨0, 0, 0, 0, 0⟩),
    ([("u", 2)], ⟨0, 0, 0, 0, 0⟩), ([("u", 5)], ⟨0, 0, 0, 0, 0⟩)] "u_train_loss"
    (by decide)
  constructor
  · rw [h.1]
    decide
  · rw [h.2.2, if_pos (by decide)]
    norm_num [lossKeySum]
    rw [show (List.filter (fun p : String × ℚ =>
        decide (p.1 ++ "_train_loss" = "u_train_loss")) [("u", 1)]) = [("u", 1)] from rfl]
    rw [show (List.filter (fun p : String × ℚ =>
        decide (p.1 ++ "_train_loss" = "u_train_loss")) [("u", 2)]) = [("u", 2)] from rfl]
    norm_num

theorem alookup_keyed_map {β : Type} (g : String → β → β) (d : List (String × β))
    (q : String) :
    alookup q (d.map (fun p => (p.1, g p.1 p.2))) = (alookup q d).map (g q) := by
  induction d with
  | nil => rfl
  | cons p ps ih =>
      simp only [List.map_cons, alookup]
      by_cases hpq : p.1 = q
      · rw [if_pos hpq, if_pos hpq, hpq]
        rfl
      · rw [if_neg hpq, if_neg hpq]
        exact ih

theorem keyed_map_fst {β : Type} (g : String → β → β) (d : List (String × β)) :
    (d.map (fun p => (p.1, g p.1 p.2))).map Prod.fst = d.map Prod.fst := by
  induction d with
  | nil => rfl
  | cons p ps ih => simp [ih]

theorem le_foldl_max (l : List ℚ) (b : ℚ) : b ≤ l.foldl max b := by
  induction l generalizing b with
  | nil => exact le_refl b
  | cons a t ih => exact le_trans (le_max_left b a) (ih (max b a))

theorem mem_le_foldl_max (l : List ℚ) (b x : ℚ) (hx : x ∈ l) : x ≤ l.foldl max b := by
  induction l generalizing b with
  | nil => exact absurd hx (List.not_mem_nil x)
  | cons a t ih =>
      rcases List.mem_cons.mp hx with hx | hx
      · subst hx
        exact le_trans (le_max_right b x) (le_foldl_max t (max b x))
      · exact ih (max b a) hx

theorem le_listMax (l : List ℚ) (x : ℚ) (hx : x ∈ l) : x ≤ listMax l :=
  mem_le_foldl_max l (l.headD 0) x hx

theorem foldl_min_le (l : List ℚ) (b : ℚ) : l.foldl min b ≤ b := by
  induction l generalizing b with
  | nil => exact le_refl b
  | cons a t ih => exact le_trans (ih (min b a)) (min_le_left b a)

theorem foldl_min_le_mem (l : List ℚ) (b x : ℚ) (hx : x ∈ l) : l.foldl min b ≤ x := by
  induction l generalizing b with
  | nil => exact absurd hx (List.not_mem_nil x)
  | cons a t ih =>
      rcases List.mem_cons.mp hx with hx | hx
      · subst hx
        exact le_trans (foldl_min_le t (min b x)) (min_le_right b x)
      · exact ih (min b a) hx

theorem listMin_le (l : List ℚ) (x : ℚ) (hx : x ∈ l) : listMin l ≤ x :=
  foldl_min_le_mem l (l.headD 0) x hx

theorem getD_map_range {α : Type} (f : Nat → α) (n j : Nat) (d : α) (hj : j < n) :
    ((List.range n).map f).getD j d = f j := by
  rw [List.getD_eq_getElem?_getD, List.getElem?_map, List.getElem?_range hj]
  rfl

/-- C8: for a feature tensor whose name has configured statistics,
`MaxMinNorm` replaces it with `(x - min_val) / (max_val - min_val)`; with
`global_scaling = False` (and the default `coarse_dim = False`), `min_val`
and `max_val` are the per-column minima and maxima along dimension 0, and
every entry of the result lies in `[0, 1]` whenever each column's maximum
strictly exceeds its minimum. -/
theorem maxMinNorm_local_scaling (cfg : MaxMinNormCfg)
    (ctx fea : List (String × List (List ℚ))) (name : String)
    (st : MaxMinStats) (mat : List (List ℚ))
    (hg : cfg.global_scaling = false) (hc : cfg.coarse_dim = false)
    (hstat : alookup name cfg.stats = some st)
    (hfea : alookup name fea = some mat) :
    alookup name (maxMinNormCall cfg (ctx, fea)).2 =
      some (normalMaxMinTransform mat (colMaxVec mat) (colMinVec mat)) ∧
    ∀ c : Nat, (∀ row ∈ mat, row.length = c) →
      (∀ j < c, (colMinVec mat).getD j 0 < (colMaxVec mat).getD j 0) →
      ∀ row2 ∈ normalMaxMinTransform mat (colMaxVec mat) (colMinVec mat),
        ∀ x ∈ row2, 0 ≤ x ∧ x ≤ 1 := by
  constructor
  · show alookup name (maxMinProcessDict cfg fea) = _
    unfold maxMinProcessDict
    rw [alookup_keyed_map (maxMinApply cfg) fea name, hfea]
    simp only [Option.map_some']
    unfold maxMinApply
    rw [hstat]
    simp only [hg, hc, Bool.false_eq_true, if_false]
  · intro c hrows hlt row2 hrow2 x hx
    obtain ⟨row, hrowmem, hroweq⟩ := List.mem_map.mp hrow2
    rw [← hroweq] at hx
    obtain ⟨j, hjmem, hjeq⟩ := List.mem_map.mp hx
    have hjr : j < row.length := List.mem_range.mp hjmem
    have hrc : row.length = c := hrows row hrowmem
    have hjc : j < c := hrc ▸ hjr
    have hc0 : (mat.headD []).length = c := by
      cases mat with
      | nil => exact absurd hrowmem (List.not_mem_nil row)
      | cons r t => exact hrows r (List.mem_cons_self r t)
    have hmin : (colMinVec mat).getD j 0 = listMin (colVals mat j) := by
      unfold colMinVec
      rw [hc0]
      exact getD_map_range _ c j 0 hjc
    have hmax : (colMaxVec mat).getD j 0 = listMax (colVals mat j) := by
      unfold colMaxVec
      rw [hc0]
      exact getD_map_range _ c j 0 hjc
    have hvmem : row.getD j 0 ∈ colVals mat j := by
      unfold colVals
      exact List.mem_map.mpr ⟨row, hrowmem, rfl⟩
    have h1 : listMin (colVals mat j) ≤ row.getD j 0 := listMin_le _ _ hvmem
    have h2 : row.getD j 0 ≤ listMax (colVals mat j) := le_listMax _ _ hvmem
    have hltj := hlt j hjc
    rw [hmin, hmax] at hltj
    rw [← hjeq]
    unfold mmEntry
    rw [hmin, hmax]
    constructor
    · apply div_nonneg
      · exact sub_nonneg.mpr h1
      · exact sub_nonneg.mpr (le_of_lt hltj)
    · rw [div_le_one (sub_pos.mpr hltj)]
      exact sub_le_sub_right h2 _

theorem maxMinNorm_local_scaling_witness :
    alookup "a" (maxMinNormCall ⟨[("a", ⟨[9], [9]⟩)], false, false⟩
      ([], [("a", [[1], [3]])])).2 = some [[0], [1]] ∧
    ∀ row2 ∈ normalMaxMinTransform [[(1 : ℚ)], [3]] (colMaxVec [[(1 : ℚ)], [3]])
        (colMinVec [[(1 : ℚ)], [3]]),
      ∀ x ∈ row2, 0 ≤ x ∧ x ≤ 1 := by
  have h := maxMinNorm_local_scaling ⟨[("a", ⟨[9], [9]⟩)], false, false⟩ []
    [("a", [[1], [3]])] "a" ⟨[9], [9]⟩ [[1], [3]] rfl rfl rfl rfl
  have hmaxv : max (max (1 : ℚ) 1) 3 = 3 := by
    rw [max_self]
    exact max_eq_right (by norm_num)
  have hminv : min (min (1 : ℚ) 1) 3 = 1 := by
    rw [min_self]
    exact min_eq_left (by norm_num)
  have hmx : colMaxVec [[(1 : ℚ)], [3]] = [3] := by
    rw [show colMaxVec [[(1 : ℚ)], [3]] = [max (max (1 : ℚ) 1) 3] from rfl, hmaxv]
  have hmn : colMinVec [[(1 : ℚ)], [3]] = [1] := by
    rw [show colMinVec [[(1 : ℚ)], [3]] = [min (min (1 : ℚ) 1) 3] from rfl, hminv]
  constructor
  · rw [h.1, hmx, hmn]
    rw [show normalMaxMinTransform [[(1 : ℚ)], [3]] [3] [1]
      = [[(1 - 1) / (3 - 1)], [(3 - 1) / (3 - 1)]] from rfl]
    norm_num
  · intro row2 hrow2 x hx
    refine h.2 1 (by decide) ?_ row2 hrow2 x hx
    intro j hj
    interval_cases j
    rw [hmx, hmn]
    norm_num

/-- C9: the normalization transforms `MaxMinNorm` and `NormalNorm` modify
only the entries whose name appears in the loaded statistics
(`feature_config`): every entry whose name is not in the statistics is
returned unchanged, and neither call adds or removes keys from the context
or the feature dictionary. -/
theorem norm_transforms_frame (mcfg : MaxMinNormCfg)
    (nstats : List (String × NormalStats))
    (ctx fea : List (String × List (List ℚ))) :
    ((maxMinNormCall mcfg (ctx, fea)).1.map Prod.fst = ctx.map Prod.fst ∧
      (maxMinNormCall mcfg (ctx, fea)).2.map Prod.fst = fea.map Prod.fst) ∧
    ((normalNormCall nstats (ctx, fea)).1.map Prod.fst = ctx.map Prod.fst ∧
      (normalNormCall nstats (ctx, fea)).2.map Prod.fst = fea.map Prod.fst) ∧
    (∀ q, alookup q mcfg.stats = none →
      alookup q (maxMinNormCall mcfg (ctx, fea)).1 = alookup q ctx ∧
      alookup q (maxMinNormCall mcfg (ctx, fea)).2 = alookup q fea) ∧
    (∀ q, alookup q nstats = none →
      alookup q (normalNormCall nstats (ctx, fea)).1 = alookup q ctx ∧
      alookup q (normalNormCall nstats (ctx, fea)).2 = alookup q fea) := by
  have hmm : ∀ d q, alookup q mcfg.stats = none →
      alookup q (maxMinProcessDict mcfg d) = alookup q d := by
    intro d q hq
    unfold maxMinProcessDict
    rw [alookup_keyed_map (maxMinApply mcfg) d q]
    cases hd : alookup q d with
    | none => rfl
    | some v =>
        simp only [Option.map_some']
        unfold maxMinApply
        rw [hq]
  have hnn : ∀ d q, alookup q nstats = none →
      alookup q (normalProcessDict nstats d) = alookup q d := by
    intro d q hq
    unfold normalProcessDict
    rw [alookup_keyed_map (normalApply nstats) d q]
    cases hd : alookup q d with
    | none => rfl
    | some v =>
        simp only [Option.map_some']
        unfold normalApply
        rw [hq]
  refine ⟨⟨?_, ?_⟩, ⟨?_, ?_⟩, ?_, ?_⟩
  · exact keyed_map_fst (maxMinApply mcfg) ctx
  · exact keyed_map_fst (maxMinApply mcfg) fea
  · exact keyed_map_fst (normalApply nstats) ctx
  · exact keyed_map_fst (normalApply nstats) fea
  · intro q hq
    exact ⟨hmm ctx q hq, hmm fea q hq⟩
  · intro q hq
    exact ⟨hnn ctx q hq, hnn fea q hq⟩

theorem norm_transforms_frame_witness :
    alookup "b" (maxMinNormCall ⟨[("a", ⟨[9], [0]⟩)], true, false⟩
      ([("b", [[5]])], [])).1 = some [[5]] ∧
    alookup "b" (normalNormCall [("a", ⟨[0], [1]⟩)] ([("b", [[5]])], [])).1
      = some [[5]] := by
  have h := norm_transforms_frame ⟨[("a", ⟨[9], [0]⟩)], true, false⟩
    [("a", ⟨[0], [1]⟩)] [("b", [[5]])] []
  constructor
  · rw [(h.2.2.1 "b" rfl).1]
    rfl
  · rw [(h.2.2.2 "b" rfl).1]
    rfl
